import Mathlib

/-!
Verification of the biquad filter design components described by the
specification of the OpenPSG repository.  The two scripts
`src/scripts/biquad_filter/highpass.py` and `src/scripts/biquad_filter/notch.py`
delegate the mathematical core to the standard signal-processing routines
`butter`, `iirnotch` and `freqz`; those routines themselves are not part of the
repository, so the three core operations (Butterworth high-pass designer,
notch designer, frequency-response evaluator) are modelled here from the
specification's algorithm descriptions (sections 4.1-4.3), over exact real and
complex arithmetic.
-/

namespace OpenPSG

open Real Classical

/-- Error kinds of the specification's error model (section 7). -/
inductive FilterError where
  | invalidParameter : FilterError
  | invalidCoefficients : FilterError
  deriving DecidableEq

/-- Horner-style evaluation of a polynomial in powers of `w` with real
coefficients at a complex point `w`.  The transfer functions of section 4 are
polynomials in `z⁻¹ = e^{-jω}` with real coefficients, numerator over
denominator. -/
def evalPoly : List ℝ → ℂ → ℂ
  | [], _ => 0
  | c :: rest, w => (c : ℂ) + w * evalPoly rest w

/-- Modelled from the spec: the complex transfer-function value at normalized
angular frequency `ω`, per section 4.3:
`H(e^{jω}) = (b0 + b1 e^{-jω} + b2 e^{-2jω}) / (a0 + a1 e^{-jω} + a2 e^{-2jω})`.
The library routine `freqz` computing this is not part of the repository. -/
noncomputable def Hval (b a : List ℝ) (ω : ℝ) : ℂ :=
  evalPoly b (Complex.exp (-(ω : ℂ) * Complex.I)) /
    evalPoly a (Complex.exp (-(ω : ℂ) * Complex.I))

/-- Modelled from the spec: the frequency response evaluator of section 4.3
(the repository calls the external routine `freqz` for this).  It generates
`num_points` frequencies evenly spaced over `[0, sample_rate_hz/2]` inclusive
of both endpoints (spacing `(sample_rate_hz/2) / (num_points - 1)` when
`num_points > 1`; a single point yields just `0`), and pairs each frequency
`f` with the transfer-function value at `ω = 2π f / sample_rate_hz`. -/
noncomputable def evaluate_response (b a : List ℝ) (sample_rate_hz : ℝ)
    (num_points : ℕ) : List (ℝ × ℂ) :=
  (List.range num_points).map fun (k : ℕ) =>
    let f : ℝ := (sample_rate_hz / 2) * (k : ℝ) / ((num_points : ℝ) - 1)
    (f, Hval b a (2 * Real.pi * f / sample_rate_hz))

/-- Pre-warped normalized cutoff of the bilinear transform (section 4.1):
with `Wn = cutoff_hz / (sample_rate_hz/2)`, this is `tan(π·Wn/2)`. -/
noncomputable def hpK (cutoff_hz sample_rate_hz : ℝ) : ℝ :=
  Real.tan (Real.pi * cutoff_hz / sample_rate_hz)

/-- Normalizing denominator constant of the discretized second-order
Butterworth high-pass filter. -/
noncomputable def hpD (cutoff_hz sample_rate_hz : ℝ) : ℝ :=
  1 + Real.sqrt 2 * hpK cutoff_hz sample_rate_hz + hpK cutoff_hz sample_rate_hz ^ 2

/-- Modelled from the spec: the Butterworth high-pass designer of section 4.1
(the repository calls the external routine `butter` for this).  For order 2 it
normalizes the cutoff as a fraction of Nyquist, pre-warps it through
`K = tan(π·cutoff_hz/sample_rate_hz)`, and applies the bilinear transform to
the analog second-order Butterworth high-pass prototype
`H(s) = s² / (s² + √2·K·s + K²)`, yielding numerator `(1, -2, 1)/D` and
denominator `(1, (2K²-2)/D, (1-√2·K+K²)/D)` with `D = 1 + √2·K + K²`.
Inputs violating the preconditions of section 4.1 fail with
`InvalidParameter`. -/
noncomputable def design_butterworth_highpass (order : ℕ)
    (cutoff_hz sample_rate_hz : ℝ) : Except FilterError (List ℝ × List ℝ) :=
  if order = 2 ∧ 0 < cutoff_hz ∧ cutoff_hz < sample_rate_hz / 2 then
    Except.ok
      ([1 / hpD cutoff_hz sample_rate_hz, -2 / hpD cutoff_hz sample_rate_hz,
          1 / hpD cutoff_hz sample_rate_hz],
        [1, (2 * hpK cutoff_hz sample_rate_hz ^ 2 - 2) / hpD cutoff_hz sample_rate_hz,
          (1 - Real.sqrt 2 * hpK cutoff_hz sample_rate_hz +
              hpK cutoff_hz sample_rate_hz ^ 2) / hpD cutoff_hz sample_rate_hz])
  else
    Except.error FilterError.invalidParameter

/-- Normalized angular center frequency of the notch designer (section 4.2). -/
noncomputable def notchW0 (center_hz sample_rate_hz : ℝ) : ℝ :=
  2 * Real.pi * center_hz / sample_rate_hz

/-- Far-from-center gain of the notch designer: `1/(1 + tan(bw/2))` with
bandwidth parameter `bw = w0 / quality_factor` (the standard -3 dB bandwidth
parametrization). -/
noncomputable def notchGain (center_hz quality_factor sample_rate_hz : ℝ) : ℝ :=
  1 / (1 + Real.tan (notchW0 center_hz sample_rate_hz / quality_factor / 2))

/-- Modelled from the spec: the notch designer of section 4.2 (the repository
calls the external routine `iirnotch` for this).  It computes the normalized
angular center frequency `w0 = 2π·center_hz/sample_rate_hz`, the bandwidth
parameter `bw = w0/quality_factor`, and places unit-circle zeros at `±w0`
with poles pulled inward through the standard -3 dB bandwidth parametrization
`β = tan(bw/2)`, `gain = 1/(1+β)`: numerator `gain·(1, -2·cos w0, 1)` and
denominator `(1, -2·gain·cos w0, 2·gain - 1)`.  Inputs violating the
preconditions of section 4.2 fail with `InvalidParameter`. -/
noncomputable def design_notch (center_hz quality_factor sample_rate_hz : ℝ) :
    Except FilterError (List ℝ × List ℝ) :=
  if 0 < center_hz ∧ center_hz < sample_rate_hz / 2 ∧ 0 < quality_factor then
    Except.ok
      ([notchGain center_hz quality_factor sample_rate_hz,
          -2 * notchGain center_hz quality_factor sample_rate_hz *
            Real.cos (notchW0 center_hz sample_rate_hz),
          notchGain center_hz quality_factor sample_rate_hz],
        [1,
          -2 * notchGain center_hz quality_factor sample_rate_hz *
            Real.cos (notchW0 center_hz sample_rate_hz),
          2 * notchGain center_hz quality_factor sample_rate_hz - 1])
  else
    Except.error FilterError.invalidParameter

/-- Numerator coefficient list of a successful design, `[]` on error. -/
def okNum (r : Except FilterError (List ℝ × List ℝ)) : List ℝ :=
  match r with
  | Except.ok p => p.1
  | Except.error _ => []

/-- Denominator coefficient list of a successful design, `[]` on error. -/
def okDen (r : Except FilterError (List ℝ × List ℝ)) : List ℝ :=
  match r with
  | Except.ok p => p.2
  | Except.error _ => []

/-- C1: for every `num_points = N ≥ 1`, `evaluate_response` returns exactly
`N` index-aligned frequency/response pairs; the `k`-th frequency is
`(fs/2)·k/(N-1)`, so the first frequency is `0`, the last (when `N > 1`) is
`fs/2`, consecutive frequencies differ by `(fs/2)/(N-1)`, and when `N = 1`
the single frequency is `0`. -/
theorem C1_evaluate_response_grid (b a : List ℝ) (fs : ℝ) (N : ℕ)
    (hN : 1 ≤ N) :
    (evaluate_response b a fs N).length = N ∧
    (∀ k, k < N →
      (evaluate_response b a fs N).getD k (0, 0) =
        ((fs / 2) * k / ((N : ℝ) - 1),
          Hval b a (2 * Real.pi * ((fs / 2) * k / ((N : ℝ) - 1)) / fs))) ∧
    ((evaluate_response b a fs N).map Prod.fst).getD 0 0 = 0 ∧
    (1 < N → ((evaluate_response b a fs N).map Prod.fst).getD (N - 1) 0 = fs / 2) ∧
    (∀ k, k + 1 < N →
      ((evaluate_response b a fs N).map Prod.fst).getD (k + 1) 0 -
        ((evaluate_response b a fs N).map Prod.fst).getD k 0 =
          (fs / 2) / ((N : ℝ) - 1)) ∧
    (N = 1 → (evaluate_response b a fs N).map Prod.fst = [0]) := by
  have hget : ∀ k, k < N →
      (evaluate_response b a fs N).getD k (0, 0) =
        ((fs / 2) * k / ((N : ℝ) - 1),
          Hval b a (2 * Real.pi * ((fs / 2) * k / ((N : ℝ) - 1)) / fs)) := by
    intro k hk
    simp only [evaluate_response, List.getD_eq_getElem?_getD, List.getElem?_map,
      List.getElem?_range hk, Option.map_some]
    rfl
  have hfst : ∀ k, k < N →
      ((evaluate_response b a fs N).map Prod.fst).getD k 0 =
        (fs / 2) * k / ((N : ℝ) - 1) := by
    intro k hk
    simp only [evaluate_response, List.getD_eq_getElem?_getD, List.getElem?_map,
      List.getElem?_range hk, Option.map_some]
    rfl
  have hlen : (evaluate_response b a fs N).length = N := by
    simp only [evaluate_response, List.length_map, List.length_range]
  refine ⟨hlen, hget, ?_, ?_, ?_, ?_⟩
  · rw [hfst 0 (by omega)]
    norm_num
  · intro h1
    rw [hfst (N - 1) (by omega)]
    have hcast : ((N - 1 : ℕ) : ℝ) = (N : ℝ) - 1 := by
      push_cast [Nat.cast_sub hN]
      ring
    have hne : (N : ℝ) - 1 ≠ 0 := by
      have : (1 : ℝ) < (N : ℝ) := by exact_mod_cast h1
      linarith
    rw [hcast, mul_div_assoc, div_self hne, mul_one]
  · intro k hk
    rw [hfst (k + 1) hk, hfst k (by omega)]
    push_cast
    ring
  · intro h1
    subst h1
    simp only [evaluate_response, show List.range 1 = [0] from rfl, List.map_map,
      List.map_cons, List.map_nil, Function.comp]
    norm_num

/-- Witness for C1 at `b = a = [1,0,0]`, `fs = 2`, `N = 3`. -/
theorem C1_witness :
    (evaluate_response [1, 0, 0] [1, 0, 0] 2 3).length = 3 :=
  (C1_evaluate_response_grid [1, 0, 0] [1, 0, 0] 2 3 (by norm_num)).1

/-- Jury stability criterion for a monic real quadratic `z² + p·z + q`:
if `|q| < 1` and `1 ± p + q > 0`, every complex root lies strictly inside
the unit circle. -/
lemma abs_root_lt_one {p q : ℝ} (hq : |q| < 1) (h1 : 0 < 1 + p + q)
    (h2 : 0 < 1 - p + q) :
    ∀ z : ℂ, z ^ 2 + (p : ℂ) * z + (q : ℂ) = 0 → Complex.abs z < 1 := by
  intro z hz
  obtain ⟨hq1, hq2⟩ := abs_lt.mp hq
  by_cases him : z.im = 0
  · have hre : z = (z.re : ℂ) := by
      apply Complex.ext <;> simp [him]
    set r := z.re with hr
    have hreal : r ^ 2 + p * r + q = 0 := by
      have hc := hz
      rw [hre] at hc
      have h0 : ((r ^ 2 + p * r + q : ℝ) : ℂ) = 0 := by
        push_cast
        linear_combination hc
      exact_mod_cast h0
    have habs : Complex.abs z = |r| := by rw [hre]; exact Complex.abs_ofReal r
    rw [habs, abs_lt]
    constructor
    · by_contra hcon
      push_neg at hcon
      have hrneg : (0 : ℝ) < -r := by linarith
      nlinarith [hreal, mul_pos h2 hrneg,
        mul_nonneg (show (0:ℝ) ≤ -(r + 1) by linarith)
          (show (0:ℝ) ≤ -(r + q) by linarith)]
    · by_contra hcon
      push_neg at hcon
      have hrpos : (0 : ℝ) < r := by linarith
      nlinarith [hreal, mul_pos h1 hrpos,
        mul_nonneg (show (0:ℝ) ≤ r - 1 by linarith)
          (show (0:ℝ) ≤ r - q by linarith)]
  · have hzc : (starRingEnd ℂ) z ^ 2 + (p : ℂ) * (starRingEnd ℂ) z + (q : ℂ) = 0 := by
      have hc := congrArg (starRingEnd ℂ) hz
      simpa [map_add, map_mul, map_pow, Complex.conj_ofReal] using hc
    have hfac : (z - (starRingEnd ℂ) z) * (z + (starRingEnd ℂ) z + (p : ℂ)) = 0 := by
      linear_combination hz - hzc
    have hsum : z + (starRingEnd ℂ) z + (p : ℂ) = 0 := by
      rcases mul_eq_zero.mp hfac with h | h
      · exfalso
        apply him
        have hcz : (starRingEnd ℂ) z = z := by linear_combination -h
        exact Complex.conj_eq_iff_im.mp hcz
      · exact h
    have hzq : z * (starRingEnd ℂ) z = (q : ℂ) := by
      linear_combination -hz + z * hsum
    have hnq : Complex.normSq z = q := by
      have hcast : ((Complex.normSq z : ℝ) : ℂ) = (q : ℂ) := by
        rw [← Complex.mul_conj]
        exact hzq
      exact_mod_cast hcast
    have hsq : Complex.abs z ^ 2 = q := by rw [Complex.sq_abs, hnq]
    nlinarith [Complex.abs.nonneg z, hsq, hq2]

/-- Unfolding of the high-pass designer on valid inputs. -/
lemma design_hp_eq (fc fs : ℝ) (h1 : 0 < fc) (h2 : fc < fs / 2) :
    design_butterworth_highpass 2 fc fs =
      Except.ok ([1 / hpD fc fs, -2 / hpD fc fs, 1 / hpD fc fs],
        [1, (2 * hpK fc fs ^ 2 - 2) / hpD fc fs,
          (1 - Real.sqrt 2 * hpK fc fs + hpK fc fs ^ 2) / hpD fc fs]) := by
  rw [design_butterworth_highpass, if_pos ⟨rfl, h1, h2⟩]

/-- Unfolding of the notch designer on valid inputs. -/
lemma design_notch_eq (f0 Q fs : ℝ) (h1 : 0 < f0) (h2 : f0 < fs / 2)
    (h3 : 0 < Q) :
    design_notch f0 Q fs =
      Except.ok ([notchGain f0 Q fs,
          -2 * notchGain f0 Q fs * Real.cos (notchW0 f0 fs), notchGain f0 Q fs],
        [1, -2 * notchGain f0 Q fs * Real.cos (notchW0 f0 fs),
          2 * notchGain f0 Q fs - 1]) := by
  rw [design_notch, if_pos ⟨h1, h2, h3⟩]

/-- The pre-warped cutoff is positive on valid inputs. -/
lemma hpK_pos (fc fs : ℝ) (h1 : 0 < fc) (h2 : fc < fs / 2) :
    0 < hpK fc fs := by
  have hfs : 0 < fs := by linarith
  have harg1 : 0 < Real.pi * fc / fs := by positivity
  have harg2 : Real.pi * fc / fs < Real.pi / 2 := by
    rw [div_lt_div_iff₀ hfs (by norm_num : (0:ℝ) < 2)]
    have := Real.pi_pos
    nlinarith
  exact Real.tan_pos_of_pos_of_lt_pi_div_two harg1 harg2

/-- The normalizing constant `D` is positive (for any real `K`). -/
lemma hpD_pos (fc fs : ℝ) : 0 < hpD fc fs := by
  have hs2 : Real.sqrt 2 ^ 2 = 2 := Real.sq_sqrt (by norm_num)
  have hs2pos : 0 < Real.sqrt 2 := Real.sqrt_pos.mpr (by norm_num)
  unfold hpD
  nlinarith [sq_nonneg (hpK fc fs + Real.sqrt 2 / 2), sq_nonneg (hpK fc fs)]

/-- C3: on every valid input `0 < cutoff_hz < sample_rate_hz/2`, the order-2
Butterworth high-pass designer succeeds and both poles of its denominator
(the roots of `z² + a1·z + a2`) have magnitude strictly less than 1. -/
theorem C3_highpass_stable (fc fs : ℝ) (h1 : 0 < fc) (h2 : fc < fs / 2)
    (b : List ℝ) (a1 a2 : ℝ)
    (heq : design_butterworth_highpass 2 fc fs = Except.ok (b, [1, a1, a2])) :
    ∀ z : ℂ, z ^ 2 + (a1 : ℂ) * z + (a2 : ℂ) = 0 → Complex.abs z < 1 := by
  have hK := hpK_pos fc fs h1 h2
  have hD := hpD_pos fc fs
  have hs2 : Real.sqrt 2 ^ 2 = 2 := Real.sq_sqrt (by norm_num)
  have hs2pos : 0 < Real.sqrt 2 := Real.sqrt_pos.mpr (by norm_num)
  rw [design_hp_eq fc fs h1 h2] at heq
  have ha : a1 = (2 * hpK fc fs ^ 2 - 2) / hpD fc fs ∧
      a2 = (1 - Real.sqrt 2 * hpK fc fs + hpK fc fs ^ 2) / hpD fc fs := by
    have := (Except.ok.injEq _ _).mp heq
    simp only [Prod.mk.injEq, List.cons.injEq] at this
    exact ⟨this.2.2.1.symm, this.2.2.2.1.symm⟩
  obtain ⟨ha1, ha2⟩ := ha
  set K := hpK fc fs with hKdef
  set D := hpD fc fs with hDdef
  have hDval : D = 1 + Real.sqrt 2 * K + K ^ 2 := rfl
  apply abs_root_lt_one
  · rw [ha2, abs_lt]
    constructor
    · rw [lt_div_iff₀ hD]
      nlinarith [sq_nonneg (K - Real.sqrt 2 / 2)]
    · rw [div_lt_one hD]
      nlinarith
  · rw [ha1, ha2]
    have : 1 + (2 * K ^ 2 - 2) / D + (1 - Real.sqrt 2 * K + K ^ 2) / D =
        (D + (2 * K ^ 2 - 2) + (1 - Real.sqrt 2 * K + K ^ 2)) / D := by
      field_simp
    rw [this]
    apply div_pos _ hD
    rw [hDval]
    nlinarith
  · rw [ha1, ha2]
    have : 1 - (2 * K ^ 2 - 2) / D + (1 - Real.sqrt 2 * K + K ^ 2) / D =
        (D - (2 * K ^ 2 - 2) + (1 - Real.sqrt 2 * K + K ^ 2)) / D := by
      field_simp
    rw [this]
    apply div_pos _ hD
    rw [hDval]
    nlinarith

/-- At cutoff 10 Hz and sample rate 40 Hz the pre-warped cutoff is 1. -/
lemma hpK_10_40 : hpK 10 40 = 1 := by
  unfold hpK
  rw [show Real.pi * 10 / 40 = Real.pi / 4 by ring]
  exact Real.tan_pi_div_four

/-- At cutoff 10 Hz and sample rate 40 Hz the normalizing constant is 2+√2. -/
lemma hpD_10_40 : hpD 10 40 = 2 + Real.sqrt 2 := by
  unfold hpD
  rw [hpK_10_40]
  ring

/-- Concrete high-pass design at cutoff 10 Hz, sample rate 40 Hz. -/
lemma design_hp_10_40 :
    design_butterworth_highpass 2 10 40 =
      Except.ok ([1 / (2 + Real.sqrt 2), -2 / (2 + Real.sqrt 2),
          1 / (2 + Real.sqrt 2)],
        [1, 0, (2 - Real.sqrt 2) / (2 + Real.sqrt 2)]) := by
  rw [design_hp_eq 10 40 (by norm_num) (by norm_num), hpK_10_40, hpD_10_40,
    show (1:ℝ) - Real.sqrt 2 * 1 + 1 ^ 2 = 2 - Real.sqrt 2 by ring]
  norm_num

/-- The concrete denominator entry rationalized: `(2-√2)/(2+√2) = 3-2√2`. -/
lemma hp_a2_10_40 : (2 - Real.sqrt 2) / (2 + Real.sqrt 2) = 3 - 2 * Real.sqrt 2 := by
  have hs2 : Real.sqrt 2 ^ 2 = 2 := Real.sq_sqrt (by norm_num)
  have hpos : (0:ℝ) < 2 + Real.sqrt 2 := by positivity
  rw [div_eq_iff (ne_of_gt hpos)]
  linear_combination 2 * hs2

/-- Witness for C3: the pole `i·(√2-1)` of the design at cutoff 10 Hz,
sample rate 40 Hz has magnitude below 1. -/
theorem C3_witness :
    Complex.abs (Complex.I * ((Real.sqrt 2 : ℂ) - 1)) < 1 := by
  apply C3_highpass_stable 10 40 (by norm_num) (by norm_num)
    [1 / (2 + Real.sqrt 2), -2 / (2 + Real.sqrt 2), 1 / (2 + Real.sqrt 2)]
    0 ((2 - Real.sqrt 2) / (2 + Real.sqrt 2)) design_hp_10_40
  rw [hp_a2_10_40]
  have hI : (Complex.I) ^ 2 = -1 := Complex.I_sq
  have hs2c : ((Real.sqrt 2 : ℝ) : ℂ) ^ 2 = 2 := by
    have hs2 : Real.sqrt 2 ^ 2 = 2 := Real.sq_sqrt (by norm_num)
    exact_mod_cast congrArg (fun x : ℝ => (x : ℂ)) hs2
  push_cast
  linear_combination ((Real.sqrt 2 : ℂ) ^ 2 - 2 * (Real.sqrt 2 : ℂ) + 1) * hI - hs2c

/-- Normalized angular center frequency at 10 Hz center, 40 Hz sample rate. -/
lemma notchW0_10_40 : notchW0 10 40 = Real.pi / 2 := by
  unfold notchW0
  ring

/-- Notch far-field gain at center 10 Hz, quality 1, sample rate 40 Hz. -/
lemma notchGain_10_1_40 : notchGain 10 1 40 = 1 / 2 := by
  unfold notchGain
  rw [notchW0_10_40, show Real.pi / 2 / 1 / 2 = Real.pi / 4 by ring,
    Real.tan_pi_div_four]
  norm_num

/-- Concrete notch design at center 10 Hz, quality 1, sample rate 40 Hz. -/
lemma design_notch_10_1_40 :
    design_notch 10 1 40 = Except.ok ([1 / 2, 0, 1 / 2], [1, 0, 0]) := by
  rw [design_notch_eq 10 1 40 (by norm_num) (by norm_num) (by norm_num),
    notchGain_10_1_40, notchW0_10_40, Real.cos_pi_div_two]
  norm_num

/-- C4: every coefficient pair returned by either designer consists of a
numerator and a denominator of exactly 3 real entries with the leading
denominator coefficient equal to 1. -/
theorem C4_coefficient_shape :
    (∀ (order : ℕ) (fc fs : ℝ) (b a : List ℝ),
        design_butterworth_highpass order fc fs = Except.ok (b, a) →
        b.length = 3 ∧ a.length = 3 ∧ a.getD 0 0 = 1) ∧
    (∀ (f0 Q fs : ℝ) (b a : List ℝ),
        design_notch f0 Q fs = Except.ok (b, a) →
        b.length = 3 ∧ a.length = 3 ∧ a.getD 0 0 = 1) := by
  constructor
  · intro order fc fs b a heq
    rw [design_butterworth_highpass] at heq
    by_cases hcond : order = 2 ∧ 0 < fc ∧ fc < fs / 2
    · rw [if_pos hcond] at heq
      simp only [Except.ok.injEq, Prod.mk.injEq] at heq
      obtain ⟨hb, ha⟩ := heq
      subst hb
      subst ha
      refine ⟨rfl, rfl, rfl⟩
    · rw [if_neg hcond] at heq
      simp at heq
  · intro f0 Q fs b a heq
    rw [design_notch] at heq
    by_cases hcond : 0 < f0 ∧ f0 < fs / 2 ∧ 0 < Q
    · rw [if_pos hcond] at heq
      simp only [Except.ok.injEq, Prod.mk.injEq] at heq
      obtain ⟨hb, ha⟩ := heq
      subst hb
      subst ha
      refine ⟨rfl, rfl, rfl⟩
    · rw [if_neg hcond] at heq
      simp at heq

/-- Witness for C4 at the two concrete designs above. -/
theorem C4_witness :
    ([1 / (2 + Real.sqrt 2), -2 / (2 + Real.sqrt 2),
        1 / (2 + Real.sqrt 2)] : List ℝ).length = 3 ∧
    ([1, 0, (2 - Real.sqrt 2) / (2 + Real.sqrt 2)] : List ℝ).getD 0 0 = 1 ∧
    ([1 / 2, 0, 1 / 2] : List ℝ).length = 3 ∧
    ([1, 0, 0] : List ℝ).getD 0 0 = 1 := by
  obtain ⟨h1, -, h3⟩ := C4_coefficient_shape.1 2 10 40 _ _ design_hp_10_40
  obtain ⟨h4, -, h6⟩ := C4_coefficient_shape.2 10 1 40 _ _ design_notch_10_1_40
  exact ⟨h1, h3, h4, h6⟩

/-- C8: each designer fails synchronously with `InvalidParameter` exactly when
its preconditions are violated (high-pass: unsupported order or cutoff outside
`(0, Nyquist)`; notch: center outside `(0, Nyquist)` or non-positive quality
factor), and succeeds on every input satisfying the preconditions. -/
theorem C8_precondition_errors :
    (∀ (order : ℕ) (fc fs : ℝ),
      (design_butterworth_highpass order fc fs =
          Except.error FilterError.invalidParameter ↔
        ¬(order = 2 ∧ 0 < fc ∧ fc < fs / 2)) ∧
      ((∃ v, design_butterworth_highpass order fc fs = Except.ok v) ↔
        (order = 2 ∧ 0 < fc ∧ fc < fs / 2))) ∧
    (∀ f0 Q fs : ℝ,
      (design_notch f0 Q fs = Except.error FilterError.invalidParameter ↔
        ¬(0 < f0 ∧ f0 < fs / 2 ∧ 0 < Q)) ∧
      ((∃ v, design_notch f0 Q fs = Except.ok v) ↔
        (0 < f0 ∧ f0 < fs / 2 ∧ 0 < Q))) := by
  constructor
  · intro order fc fs
    by_cases hcond : order = 2 ∧ 0 < fc ∧ fc < fs / 2
    · rw [design_butterworth_highpass, if_pos hcond]
      refine ⟨⟨fun h => by simp at h, fun h => absurd hcond h⟩,
        ⟨fun _ => hcond, fun _ => ⟨_, rfl⟩⟩⟩
    · rw [design_butterworth_highpass, if_neg hcond]
      refine ⟨⟨fun _ => hcond, fun _ => rfl⟩,
        ⟨fun h => ?_, fun h => absurd h hcond⟩⟩
      obtain ⟨v, hv⟩ := h
      simp at hv
  · intro f0 Q fs
    by_cases hcond : 0 < f0 ∧ f0 < fs / 2 ∧ 0 < Q
    · rw [design_notch, if_pos hcond]
      refine ⟨⟨fun h => by simp at h, fun h => absurd hcond h⟩,
        ⟨fun _ => hcond, fun _ => ⟨_, rfl⟩⟩⟩
    · rw [design_notch, if_neg hcond]
      refine ⟨⟨fun _ => hcond, fun _ => rfl⟩,
        ⟨fun h => ?_, fun h => absurd h hcond⟩⟩
      obtain ⟨v, hv⟩ := h
      simp at hv

/-- Witness for C8: a zero cutoff and a zero quality factor are rejected with
`InvalidParameter`. -/
theorem C8_witness :
    design_butterworth_highpass 2 0 40 =
        Except.error FilterError.invalidParameter ∧
    design_notch 10 0 40 = Except.error FilterError.invalidParameter := by
  refine ⟨((C8_precondition_errors.1 2 0 40).1).mpr ?_,
    ((C8_precondition_errors.2 10 0 40).1).mpr ?_⟩ <;> norm_num

/-- C9: both designers are deterministic pure functions of their arguments:
identical parameter tuples give identical coefficient pairs (in this pure
functional model there is no hidden state at all). -/
theorem C9_deterministic :
    (∀ (o o' : ℕ) (fc fc' fs fs' : ℝ), o = o' → fc = fc' → fs = fs' →
      design_butterworth_highpass o fc fs =
        design_butterworth_highpass o' fc' fs') ∧
    (∀ f0 f0' Q Q' fs fs' : ℝ, f0 = f0' → Q = Q' → fs = fs' →
      design_notch f0 Q fs = design_notch f0' Q' fs') := by
  constructor
  · intro o o' fc fc' fs fs' h1 h2 h3
    rw [h1, h2, h3]
  · intro f0 f0' Q Q' fs fs' h1 h2 h3
    rw [h1, h2, h3]

/-- Witness for C9 at the two concrete parameter tuples used above. -/
theorem C9_witness :
    design_butterworth_highpass 2 10 40 = design_butterworth_highpass 2 10 40 ∧
    design_notch 10 1 40 = design_notch 10 1 40 :=
  ⟨C9_deterministic.1 2 2 10 10 40 40 rfl rfl rfl,
    C9_deterministic.2 10 10 1 1 40 40 rfl rfl rfl⟩

/-- Rectangular form of the unit-circle point `e^{-jω}`. -/
lemma exp_neg_ofReal_mul_I (ω : ℝ) :
    Complex.exp (-(ω : ℂ) * Complex.I) =
      (Real.cos ω : ℂ) - (Real.sin ω : ℂ) * Complex.I := by
  have h : -(ω : ℂ) * Complex.I = ((-ω : ℝ) : ℂ) * Complex.I := by
    push_cast
    ring
  rw [h, Complex.exp_mul_I, ← Complex.ofReal_cos, ← Complex.ofReal_sin,
    Real.cos_neg, Real.sin_neg]
  push_cast
  ring

/-- Rectangular form of the unit-circle point `e^{jω}`. -/
lemma exp_ofReal_mul_I (ω : ℝ) :
    Complex.exp ((ω : ℂ) * Complex.I) =
      (Real.cos ω : ℂ) + (Real.sin ω : ℂ) * Complex.I := by
  rw [Complex.exp_mul_I, ← Complex.ofReal_cos, ← Complex.ofReal_sin]

/-- The palindromic notch numerator `g - 2g·cosθ·w + g·w²` vanishes at the
unit-circle points `w = e^{±jθ}` (given in rectangular form). -/
lemma notch_num_vanish (g θ : ℝ) (w : ℂ)
    (hw : w = (Real.cos θ : ℂ) + (Real.sin θ : ℂ) * Complex.I ∨
          w = (Real.cos θ : ℂ) - (Real.sin θ : ℂ) * Complex.I) :
    (g : ℂ) + ((-2 * g * Real.cos θ : ℝ) : ℂ) * w + (g : ℂ) * w ^ 2 = 0 := by
  have hpy : Complex.sin (θ : ℂ) ^ 2 + Complex.cos (θ : ℂ) ^ 2 = 1 :=
    Complex.sin_sq_add_cos_sq _
  have hI : (Complex.I) ^ 2 = -1 := Complex.I_sq
  rcases hw with hw | hw <;> subst hw <;> push_cast <;>
    linear_combination ((g : ℂ) * Complex.sin (θ : ℂ) ^ 2) * hI -
      (g : ℂ) * hpy

/-- C10: on every valid input the notch numerator is palindromic
(`b0 = b2` and `b1 = -2·b0·cos w0` with `w0 = 2π·center_hz/sample_rate_hz`),
and the numerator polynomial `b0 + b1·w + b2·w²` vanishes at the unit-circle
points `w = e^{±j·w0}`, so both numerator zeros lie exactly on the unit
circle at angles `±w0`. -/
theorem C10_notch_numerator_palindromic (f0 Q fs : ℝ)
    (h1 : 0 < f0) (h2 : f0 < fs / 2) (h3 : 0 < Q)
    (b0 b1 b2 : ℝ) (a : List ℝ)
    (heq : design_notch f0 Q fs = Except.ok ([b0, b1, b2], a)) :
    b0 = b2 ∧ b1 = -2 * b0 * Real.cos (notchW0 f0 fs) ∧
    (b0 : ℂ) + (b1 : ℂ) * Complex.exp ((notchW0 f0 fs : ℂ) * Complex.I) +
      (b2 : ℂ) * Complex.exp ((notchW0 f0 fs : ℂ) * Complex.I) ^ 2 = 0 ∧
    (b0 : ℂ) + (b1 : ℂ) * Complex.exp (-(notchW0 f0 fs : ℂ) * Complex.I) +
      (b2 : ℂ) * Complex.exp (-(notchW0 f0 fs : ℂ) * Complex.I) ^ 2 = 0 ∧
    Complex.abs (Complex.exp ((notchW0 f0 fs : ℂ) * Complex.I)) = 1 := by
  rw [design_notch_eq f0 Q fs h1 h2 h3] at heq
  simp only [Except.ok.injEq, Prod.mk.injEq, List.cons.injEq, and_true] at heq
  obtain ⟨⟨hb0, hb1, hb2⟩, -⟩ := heq
  subst hb0
  subst hb1
  subst hb2
  refine ⟨rfl, rfl, ?_, ?_, Complex.abs_exp_ofReal_mul_I _⟩
  · rw [exp_ofReal_mul_I]
    exact notch_num_vanish _ _ _ (Or.inl rfl)
  · rw [exp_neg_ofReal_mul_I]
    exact notch_num_vanish _ _ _ (Or.inr rfl)

/-- Witness for C10: the numerator of the design at center 10 Hz, quality 1,
sample rate 40 Hz vanishes at `e^{j·w0}`. -/
theorem C10_witness :
    ((1 / 2 : ℝ) : ℂ) +
      ((0 : ℝ) : ℂ) * Complex.exp ((notchW0 10 40 : ℂ) * Complex.I) +
      ((1 / 2 : ℝ) : ℂ) * Complex.exp ((notchW0 10 40 : ℂ) * Complex.I) ^ 2 = 0 :=
  (C10_notch_numerator_palindromic 10 1 40 (by norm_num) (by norm_num)
    (by norm_num) (1 / 2) 0 (1 / 2) [1, 0, 0] design_notch_10_1_40).2.2.1

/-- Normalized angular center frequency of the C2 counterexample input. -/
lemma notchW0_c2 : notchW0 (40 / 3) 40 = 2 * Real.pi / 3 := by
  unfold notchW0
  ring

/-- Tangent value at `2π/3`. -/
lemma tan_two_pi_div_three : Real.tan (2 * Real.pi / 3) = -Real.sqrt 3 := by
  rw [show 2 * Real.pi / 3 = Real.pi - Real.pi / 3 by ring, Real.tan_pi_sub,
    Real.tan_eq_sin_div_cos, Real.sin_pi_div_three, Real.cos_pi_div_three]
  ring

/-- Cosine value at `2π/3`. -/
lemma cos_two_pi_div_three : Real.cos (2 * Real.pi / 3) = -(1 / 2) := by
  rw [show 2 * Real.pi / 3 = Real.pi - Real.pi / 3 by ring, Real.cos_pi_sub,
    Real.cos_pi_div_three]

/-- Notch far-field gain at the C2 counterexample input. -/
lemma notchGain_c2 : notchGain (40 / 3) (1 / 2) 40 = -(1 + Real.sqrt 3) / 2 := by
  unfold notchGain
  rw [show notchW0 (40 / 3) 40 / (1 / 2) / 2 = 2 * Real.pi / 3 by
      rw [notchW0_c2]; ring,
    tan_two_pi_div_three]
  have hs3 : Real.sqrt 3 ^ 2 = 3 := Real.sq_sqrt (by norm_num)
  have hne : 1 - Real.sqrt 3 ≠ 0 := by
    intro h
    nlinarith [hs3]
  rw [show (1 : ℝ) + -Real.sqrt 3 = 1 - Real.sqrt 3 by ring,
    div_eq_div_iff hne (by norm_num : (2 : ℝ) ≠ 0)]
  linear_combination -hs3

/-- Concrete notch design at center 40/3 Hz, quality 1/2, sample rate 40 Hz. -/
lemma design_notch_c2 :
    design_notch (40 / 3) (1 / 2) 40 =
      Except.ok ([-(1 + Real.sqrt 3) / 2, -(1 + Real.sqrt 3) / 2,
          -(1 + Real.sqrt 3) / 2],
        [1, -(1 + Real.sqrt 3) / 2, -(2 + Real.sqrt 3)]) := by
  rw [design_notch_eq (40 / 3) (1 / 2) 40 (by norm_num) (by norm_num)
      (by norm_num),
    notchGain_c2, notchW0_c2, cos_two_pi_div_three,
    show -2 * (-(1 + Real.sqrt 3) / 2) * -(1 / 2) = -(1 + Real.sqrt 3) / 2 by
      ring,
    show 2 * (-(1 + Real.sqrt 3) / 2) - 1 = -(2 + Real.sqrt 3) by ring]

/-- C2 is refuted as stated: at the valid input center `40/3` Hz, quality
factor `1/2`, sample rate 40 Hz, the denominator returned by the notch
designer is `[1, -(1+√3)/2, -(2+√3)]` and `1+√3` is a root of the pole
polynomial `z² + a1·z + a2` with magnitude greater than 1, so the poles do
not all lie inside the unit circle for all positive quality factors. -/
theorem C2_counterexample :
    (0 : ℝ) < 40 / 3 ∧ (40 / 3 : ℝ) < 40 / 2 ∧ (0 : ℝ) < 1 / 2 ∧
    okDen (design_notch (40 / 3) (1 / 2) 40) =
      [1, -(1 + Real.sqrt 3) / 2, -(2 + Real.sqrt 3)] ∧
    (1 + Real.sqrt 3) ^ 2 +
        (okDen (design_notch (40 / 3) (1 / 2) 40)).getD 1 0 * (1 + Real.sqrt 3) +
        (okDen (design_notch (40 / 3) (1 / 2) 40)).getD 2 0 = 0 ∧
    1 < |1 + Real.sqrt 3| := by
  have hden : okDen (design_notch (40 / 3) (1 / 2) 40) =
      [1, -(1 + Real.sqrt 3) / 2, -(2 + Real.sqrt 3)] := by
    rw [design_notch_c2]
    rfl
  have hs3 : Real.sqrt 3 ^ 2 = 3 := Real.sq_sqrt (by norm_num)
  have hs3pos : 0 < Real.sqrt 3 := Real.sqrt_pos.mpr (by norm_num)
  refine ⟨by norm_num, by norm_num, by norm_num, hden, ?_, ?_⟩
  · rw [hden]
    simp only [List.getD_cons_succ, List.getD_cons_zero]
    linear_combination (1 / 2) * hs3
  · rw [abs_of_pos (by positivity)]
    linarith

/-- The notch gain lies strictly between 0 and 1 when additionally
`2·center_hz < quality_factor·sample_rate_hz` (the -3 dB bandwidth argument
`bw/2` then stays inside `(0, π/2)` where the tangent is positive). -/
lemma notchGain_mem (f0 Q fs : ℝ) (h1 : 0 < f0) (h2 : f0 < fs / 2)
    (h3 : 0 < Q) (h4 : 2 * f0 < Q * fs) :
    0 < notchGain f0 Q fs ∧ notchGain f0 Q fs < 1 := by
  have hfs : 0 < fs := by linarith
  have harg : notchW0 f0 fs / Q / 2 = Real.pi * f0 / (fs * Q) := by
    unfold notchW0
    field_simp
    ring
  have hpos : 0 < Real.pi * f0 / (fs * Q) := by positivity
  have hlt : Real.pi * f0 / (fs * Q) < Real.pi / 2 := by
    rw [div_lt_div_iff₀ (by positivity) (by norm_num : (0:ℝ) < 2)]
    nlinarith [mul_lt_mul_of_pos_left h4 Real.pi_pos]
  have hβpos : 0 < Real.tan (Real.pi * f0 / (fs * Q)) :=
    Real.tan_pos_of_pos_of_lt_pi_div_two hpos hlt
  unfold notchGain
  rw [harg]
  constructor
  · positivity
  · rw [div_lt_one (by linarith)]
    linarith

/-- C2 (amended): for every valid notch input satisfying in addition
`2·center_hz < quality_factor·sample_rate_hz` (so the bandwidth parameter
`bw/2` stays below `π/2`), the designed filter's gain at the center frequency
is exactly 0 — in particular below 1e-9 — and both poles of the denominator
lie strictly inside the unit circle.  (The counterexample shows the
unrestricted claim fails for small quality factors.) -/
theorem C2_amended_notch (f0 Q fs : ℝ) (h1 : 0 < f0) (h2 : f0 < fs / 2)
    (h3 : 0 < Q) (h4 : 2 * f0 < Q * fs) (b : List ℝ) (a1 a2 : ℝ)
    (heq : design_notch f0 Q fs = Except.ok (b, [1, a1, a2])) :
    Complex.abs (Hval b [1, a1, a2] (notchW0 f0 fs)) < 1e-9 ∧
    ∀ z : ℂ, z ^ 2 + (a1 : ℂ) * z + (a2 : ℂ) = 0 → Complex.abs z < 1 := by
  rw [design_notch_eq f0 Q fs h1 h2 h3] at heq
  simp only [Except.ok.injEq, Prod.mk.injEq, List.cons.injEq, and_true,
    true_and] at heq
  obtain ⟨hb, ha1, ha2⟩ := heq
  subst hb
  subst ha1
  subst ha2
  set g := notchGain f0 Q fs with hgdef
  set w0 := notchW0 f0 fs with hw0def
  have hnum : evalPoly [g, -2 * g * Real.cos w0, g]
      (Complex.exp (-(w0 : ℂ) * Complex.I)) = 0 := by
    have h := notch_num_vanish g w0
      ((Real.cos w0 : ℂ) - (Real.sin w0 : ℂ) * Complex.I) (Or.inr rfl)
    rw [exp_neg_ofReal_mul_I]
    simp only [evalPoly]
    linear_combination h
  constructor
  · have hHval : Hval [g, -2 * g * Real.cos w0, g]
        [1, -2 * g * Real.cos w0, 2 * g - 1] w0 = 0 := by
      unfold Hval
      rw [hnum, zero_div]
    rw [hHval]
    simp only [map_zero]
    norm_num
  · obtain ⟨hg0, hg1⟩ := notchGain_mem f0 Q fs h1 h2 h3 h4
    have hfs : 0 < fs := by linarith
    have hw0pos : 0 < w0 := by
      rw [hw0def]
      unfold notchW0
      positivity
    have hw0lt : w0 < Real.pi := by
      rw [hw0def]
      unfold notchW0
      rw [div_lt_iff₀ hfs]
      nlinarith [mul_lt_mul_of_pos_left (show 2 * f0 < fs by linarith)
        Real.pi_pos]
    have hcos1 : Real.cos w0 < 1 := by
      have h := Real.cos_lt_cos_of_nonneg_of_le_pi (le_refl (0:ℝ))
        (le_of_lt hw0lt) hw0pos
      simpa using h
    have hcos2 : -1 < Real.cos w0 := by
      have h := Real.cos_lt_cos_of_nonneg_of_le_pi (le_of_lt hw0pos)
        (le_refl Real.pi) hw0lt
      simpa using h
    apply abs_root_lt_one
    · rw [abs_lt]
      constructor <;> [linarith; linarith]
    · nlinarith [mul_pos hg0 (show (0:ℝ) < 1 - Real.cos w0 by linarith)]
    · nlinarith [mul_pos hg0 (show (0:ℝ) < 1 + Real.cos w0 by linarith)]

/-- Witness for the amended C2 at center 10 Hz, quality 1, sample rate 40 Hz
(and the pole `z = 0` of that design). -/
theorem C2_amended_witness :
    Complex.abs (Hval [1 / 2, 0, 1 / 2] [1, 0, 0] (notchW0 10 40)) < 1e-9 ∧
    Complex.abs (0 : ℂ) < 1 := by
  have h := C2_amended_notch 10 1 40 (by norm_num) (by norm_num) (by norm_num)
    (by norm_num) [1 / 2, 0, 1 / 2] 0 0 design_notch_10_1_40
  exact ⟨h.1, h.2 0 (by norm_num)⟩

/-- Unfolded form of the three-coefficient polynomial evaluation. -/
lemma evalPoly_three (x y z : ℝ) (w : ℂ) :
    evalPoly [x, y, z] w = (x : ℂ) + (y : ℂ) * w + (z : ℂ) * w ^ 2 := by
  simp only [evalPoly]
  ring

/-- The point `e^{-jπ}` is `-1`. -/
lemma exp_neg_pi_mul_I : Complex.exp (-(Real.pi : ℂ) * Complex.I) = -1 := by
  rw [exp_neg_ofReal_mul_I, Real.cos_pi, Real.sin_pi]
  push_cast
  ring

/-- Magnitude of the designed high-pass response at the Nyquist frequency. -/
lemma hp_abs_nyquist (fc fs : ℝ) (h1 : 0 < fc) (h2 : fc < fs / 2) :
    Complex.abs (Hval [1 / hpD fc fs, -2 / hpD fc fs, 1 / hpD fc fs]
      [1, (2 * hpK fc fs ^ 2 - 2) / hpD fc fs,
        (1 - Real.sqrt 2 * hpK fc fs + hpK fc fs ^ 2) / hpD fc fs]
      (2 * Real.pi * (fs / 2) / fs)) = 1 := by
  have hfs : 0 < fs := by linarith
  have hD := hpD_pos fc fs
  have hD' : hpD fc fs ≠ 0 := ne_of_gt hD
  rw [show 2 * Real.pi * (fs / 2) / fs = Real.pi by field_simp; ring]
  unfold Hval
  rw [exp_neg_pi_mul_I, evalPoly_three, evalPoly_three]
  have hnum : ((1 / hpD fc fs : ℝ) : ℂ) + ((-2 / hpD fc fs : ℝ) : ℂ) * (-1) +
      ((1 / hpD fc fs : ℝ) : ℂ) * (-1) ^ 2 = ((4 / hpD fc fs : ℝ) : ℂ) := by
    push_cast
    ring
  have hdenR : (1 : ℝ) + (2 * hpK fc fs ^ 2 - 2) / hpD fc fs * (-1) +
      (1 - Real.sqrt 2 * hpK fc fs + hpK fc fs ^ 2) / hpD fc fs * (-1) ^ 2 =
      4 / hpD fc fs := by
    have hDval : hpD fc fs = 1 + Real.sqrt 2 * hpK fc fs + hpK fc fs ^ 2 := rfl
    rw [hDval] at hD' ⊢
    field_simp
    ring
  have hden : ((1 : ℝ) : ℂ) +
      (((2 * hpK fc fs ^ 2 - 2) / hpD fc fs : ℝ) : ℂ) * (-1) +
      (((1 - Real.sqrt 2 * hpK fc fs + hpK fc fs ^ 2) / hpD fc fs : ℝ) : ℂ) *
        (-1) ^ 2 = ((4 / hpD fc fs : ℝ) : ℂ) := by
    have := congrArg (fun x : ℝ => (x : ℂ)) hdenR
    push_cast at this ⊢
    linear_combination this
  rw [hnum, hden, div_self, map_one]
  exact Complex.ofReal_ne_zero.mpr (by positivity)

/-- C7: for every valid input, the designed high-pass filter's response is
exactly 0 at frequency `f = 0` (so its magnitude tends to 0 as `f → 0`), and
its magnitude at the Nyquist frequency `f = sample_rate_hz/2` equals 1, the
passband gain. -/
theorem C7_highpass_endpoints (fc fs : ℝ) (h1 : 0 < fc) (h2 : fc < fs / 2)
    (b a : List ℝ)
    (heq : design_butterworth_highpass 2 fc fs = Except.ok (b, a)) :
    Hval b a (2 * Real.pi * 0 / fs) = 0 ∧
    Complex.abs (Hval b a (2 * Real.pi * (fs / 2) / fs)) = 1 := by
  rw [design_hp_eq fc fs h1 h2] at heq
  simp only [Except.ok.injEq, Prod.mk.injEq] at heq
  obtain ⟨hb, ha⟩ := heq
  subst hb
  subst ha
  constructor
  · rw [show 2 * Real.pi * 0 / fs = 0 by ring]
    unfold Hval
    rw [show -((0 : ℝ) : ℂ) * Complex.I = 0 by push_cast; ring,
      Complex.exp_zero, div_eq_zero_iff]
    left
    rw [evalPoly_three]
    push_cast
    ring
  · exact hp_abs_nyquist fc fs h1 h2

/-- Rectangular form of a second-order section evaluated at a conjugate
unit-circle style point `C - S·i`. -/
lemma evalPoly_rect (w x y C S : ℝ) :
    evalPoly [w, x, y] ((C : ℂ) - (S : ℂ) * Complex.I) =
      ((w + x * C + y * (C ^ 2 - S ^ 2) : ℝ) : ℂ) +
        ((-(x * S + y * (2 * C * S)) : ℝ) : ℂ) * Complex.I := by
  have hI : (Complex.I) ^ 2 = -1 := Complex.I_sq
  rw [evalPoly_three]
  push_cast
  linear_combination ((y : ℂ) * (S : ℂ) ^ 2) * hI

/-- Half-angle expression of `cos(2θ)` through `t = tan θ`. -/
lemma cos_two_mul_tan (θ : ℝ) (hc : Real.cos θ ≠ 0) :
    Real.cos (2 * θ) = (1 - Real.tan θ ^ 2) / (1 + Real.tan θ ^ 2) := by
  have hpy := Real.sin_sq_add_cos_sq θ
  have h1t : (0:ℝ) < 1 + Real.tan θ ^ 2 := by positivity
  rw [Real.cos_two_mul, eq_div_iff (ne_of_gt h1t), Real.tan_eq_sin_div_cos]
  field_simp
  linear_combination hpy

/-- Half-angle expression of `sin(2θ)` through `t = tan θ`. -/
lemma sin_two_mul_tan (θ : ℝ) (hc : Real.cos θ ≠ 0) :
    Real.sin (2 * θ) = 2 * Real.tan θ / (1 + Real.tan θ ^ 2) := by
  have hpy := Real.sin_sq_add_cos_sq θ
  have h1t : (0:ℝ) < 1 + Real.tan θ ^ 2 := by positivity
  rw [Real.sin_two_mul, eq_div_iff (ne_of_gt h1t), Real.tan_eq_sin_div_cos]
  field_simp
  ring

/-- C5: at `f = cutoff_hz` the magnitude response of the designed order-2
Butterworth high-pass filter equals `1/√2` times the passband gain exactly
(hence within any relative tolerance), the passband gain being the magnitude
1 attained at the Nyquist frequency. -/
theorem C5_highpass_cutoff_gain (fc fs : ℝ) (h1 : 0 < fc) (h2 : fc < fs / 2)
    (b a : List ℝ)
    (heq : design_butterworth_highpass 2 fc fs = Except.ok (b, a)) :
    Complex.abs (Hval b a (2 * Real.pi * fc / fs)) =
      (Real.sqrt 2)⁻¹ * Complex.abs (Hval b a (2 * Real.pi * (fs / 2) / fs)) ∧
    Complex.abs (Hval b a (2 * Real.pi * (fs / 2) / fs)) = 1 := by
  rw [design_hp_eq fc fs h1 h2] at heq
  simp only [Except.ok.injEq, Prod.mk.injEq] at heq
  obtain ⟨hb, ha⟩ := heq
  subst hb
  subst ha
  have hny := hp_abs_nyquist fc fs h1 h2
  refine ⟨?_, hny⟩
  rw [hny, mul_one]
  have hfs : 0 < fs := by linarith
  set θ := Real.pi * fc / fs with hθdef
  have hθ1 : 0 < θ := by rw [hθdef]; positivity
  have hθ2 : θ < Real.pi / 2 := by
    rw [hθdef, div_lt_div_iff₀ hfs (by norm_num : (0:ℝ) < 2)]
    nlinarith [Real.pi_pos]
  have hcθ : 0 < Real.cos θ := Real.cos_pos_of_mem_Ioo ⟨by linarith, hθ2⟩
  set t := hpK fc fs with htdef
  have ht : 0 < t := hpK_pos fc fs h1 h2
  have htan : t = Real.tan θ := rfl
  set r := Real.sqrt 2 with hrdef
  have hr : 0 < r := Real.sqrt_pos.mpr (by norm_num)
  set D := hpD fc fs with hDdef
  have hDval : D = 1 + r * t + t ^ 2 := rfl
  have hDpos : (0:ℝ) < 1 + r * t + t ^ 2 := by positivity
  have h1t : (0:ℝ) < 1 + t ^ 2 := by positivity
  rw [show 2 * Real.pi * fc / fs = 2 * θ by rw [hθdef]; ring]
  set C := Real.cos (2 * θ) with hCdef
  set S := Real.sin (2 * θ) with hSdef
  have hCt : C = (1 - t ^ 2) / (1 + t ^ 2) := by
    rw [hCdef, htan]
    exact cos_two_mul_tan θ (ne_of_gt hcθ)
  have hSt : S = 2 * t / (1 + t ^ 2) := by
    rw [hSdef, htan]
    exact sin_two_mul_tan θ (ne_of_gt hcθ)
  have hE : Complex.exp (-((2 * θ : ℝ) : ℂ) * Complex.I) =
      (C : ℂ) - (S : ℂ) * Complex.I := by
    rw [exp_neg_ofReal_mul_I]
  unfold Hval
  rw [hE, evalPoly_rect, evalPoly_rect, map_div₀, Complex.abs_apply,
    Complex.abs_apply, Complex.normSq_add_mul_I, Complex.normSq_add_mul_I]
  have hkey : (1 + (2 * t ^ 2 - 2) / D * C +
        (1 - r * t + t ^ 2) / D * (C ^ 2 - S ^ 2)) ^ 2 +
        (-((2 * t ^ 2 - 2) / D * S + (1 - r * t + t ^ 2) / D * (2 * C * S))) ^ 2 =
      r ^ 2 * ((1 / D + -2 / D * C + 1 / D * (C ^ 2 - S ^ 2)) ^ 2 +
        (-(-2 / D * S + 1 / D * (2 * C * S))) ^ 2) := by
    rw [hCt, hSt, hDval]
    field_simp
    ring
  have hNI : -(-2 / D * S + 1 / D * (2 * C * S)) =
      8 * t ^ 3 / ((1 + t ^ 2) ^ 2 * (1 + r * t + t ^ 2)) := by
    rw [hCt, hSt, hDval]
    field_simp
    ring
  have hNIpos : 0 < -(-2 / D * S + 1 / D * (2 * C * S)) := by
    rw [hNI]
    positivity
  have hXpos : 0 < (1 / D + -2 / D * C + 1 / D * (C ^ 2 - S ^ 2)) ^ 2 +
      (-(-2 / D * S + 1 / D * (2 * C * S))) ^ 2 := by
    have h1 := sq_nonneg (1 / D + -2 / D * C + 1 / D * (C ^ 2 - S ^ 2))
    have h2 := pow_pos hNIpos 2
    linarith
  rw [hkey, Real.sqrt_mul (sq_nonneg r), Real.sqrt_sq hr.le]
  have hsne : Real.sqrt ((1 / D + -2 / D * C + 1 / D * (C ^ 2 - S ^ 2)) ^ 2 +
      (-(-2 / D * S + 1 / D * (2 * C * S))) ^ 2) ≠ 0 :=
    ne_of_gt (Real.sqrt_pos.mpr hXpos)
  rw [mul_comm r _, ← div_div, div_self hsne, one_div]

/-- Witness for C5 at cutoff 10 Hz, sample rate 40 Hz. -/
theorem C5_witness :
    Complex.abs (Hval
        [1 / (2 + Real.sqrt 2), -2 / (2 + Real.sqrt 2), 1 / (2 + Real.sqrt 2)]
        [1, 0, (2 - Real.sqrt 2) / (2 + Real.sqrt 2)]
        (2 * Real.pi * 10 / 40)) =
      (Real.sqrt 2)⁻¹ * Complex.abs (Hval
        [1 / (2 + Real.sqrt 2), -2 / (2 + Real.sqrt 2), 1 / (2 + Real.sqrt 2)]
        [1, 0, (2 - Real.sqrt 2) / (2 + Real.sqrt 2)]
        (2 * Real.pi * (40 / 2) / 40)) ∧
    Complex.abs (Hval
        [1 / (2 + Real.sqrt 2), -2 / (2 + Real.sqrt 2), 1 / (2 + Real.sqrt 2)]
        [1, 0, (2 - Real.sqrt 2) / (2 + Real.sqrt 2)]
        (2 * Real.pi * (40 / 2) / 40)) = 1 :=
  C5_highpass_cutoff_gain 10 40 (by norm_num) (by norm_num) _ _ design_hp_10_40

/-- Witness for C7 at cutoff 10 Hz, sample rate 40 Hz. -/
theorem C7_witness :
    Hval [1 / (2 + Real.sqrt 2), -2 / (2 + Real.sqrt 2), 1 / (2 + Real.sqrt 2)]
        [1, 0, (2 - Real.sqrt 2) / (2 + Real.sqrt 2)] (2 * Real.pi * 0 / 40) = 0 ∧
    Complex.abs
        (Hval [1 / (2 + Real.sqrt 2), -2 / (2 + Real.sqrt 2),
            1 / (2 + Real.sqrt 2)]
          [1, 0, (2 - Real.sqrt 2) / (2 + Real.sqrt 2)]
          (2 * Real.pi * (40 / 2) / 40)) = 1 :=
  C7_highpass_endpoints 10 40 (by norm_num) (by norm_num) _ _ design_hp_10_40

/-- Two-sided numeric bounds on the pre-warped cutoff at cutoff 0.1 Hz,
sample rate 40 Hz: `tan(π/400)` lies in `(0.0078539, 0.0078548)`. -/
lemma hpK_01_40_bounds :
    0.0078539 < hpK 0.1 40 ∧ hpK 0.1 40 < 0.0078548 := by
  have harg : Real.pi * 0.1 / 40 = Real.pi / 400 := by ring
  unfold hpK
  rw [harg]
  have hπl : 3.141592 < Real.pi := Real.pi_gt_d6
  have hπu : Real.pi < 3.141593 := Real.pi_lt_d6
  have hx1 : (0:ℝ) < Real.pi / 400 := by positivity
  have hx2 : Real.pi / 400 < Real.pi / 2 := by linarith
  constructor
  · have hlt := Real.lt_tan hx1 hx2
    have : (0.0078539 : ℝ) < Real.pi / 400 := by linarith
    linarith
  · have hsinx : Real.sin (Real.pi / 400) < Real.pi / 400 := Real.sin_lt hx1
    have hcosx : 1 - (Real.pi / 400) ^ 2 / 2 < Real.cos (Real.pi / 400) :=
      Real.one_sub_sq_div_two_lt_cos (ne_of_gt hx1)
    have hcos_pos : 0 < Real.cos (Real.pi / 400) :=
      Real.cos_pos_of_mem_Ioo ⟨by linarith, hx2⟩
    have hxval : Real.pi / 400 < 0.007853983 := by linarith
    have hcos_lb : (0.99996 : ℝ) < Real.cos (Real.pi / 400) := by nlinarith
    rw [Real.tan_eq_sin_div_cos, div_lt_iff₀ hcos_pos]
    nlinarith [mul_lt_mul_of_pos_left hcos_lb
      (show (0:ℝ) < 0.0078548 by norm_num)]

/-- Two-sided numeric bounds on `√2`. -/
lemma sqrt2_bounds : 1.414213 < Real.sqrt 2 ∧ Real.sqrt 2 < 1.414214 := by
  have h := Real.sq_sqrt (show (0:ℝ) ≤ 2 by norm_num)
  have hpos := Real.sqrt_pos.mpr (show (0:ℝ) < 2 by norm_num)
  constructor <;> nlinarith [h, hpos]

/-- Bounds on the product `√2 · tan(π/400)`. -/
lemma sqrt2K_bounds :
    0.011107 < Real.sqrt 2 * hpK 0.1 40 ∧
    Real.sqrt 2 * hpK 0.1 40 < 0.0111084 := by
  obtain ⟨hK1, hK2⟩ := hpK_01_40_bounds
  obtain ⟨hs1, hs2⟩ := sqrt2_bounds
  have hspos : (0:ℝ) < Real.sqrt 2 := by linarith
  constructor
  · nlinarith [mul_lt_mul_of_pos_left hK1 hspos,
      mul_lt_mul_of_pos_right hs1 (show (0:ℝ) < 0.0078539 by norm_num)]
  · nlinarith [mul_lt_mul_of_pos_left hK2 hspos,
      mul_lt_mul_of_pos_right hs2 (show (0:ℝ) < 0.0078548 by norm_num)]

/-- Bounds on the square of the pre-warped cutoff. -/
lemma hpK_sq_bounds :
    0.0000616 < hpK 0.1 40 ^ 2 ∧ hpK 0.1 40 ^ 2 < 0.0000617 := by
  obtain ⟨hK1, hK2⟩ := hpK_01_40_bounds
  constructor
  · nlinarith [mul_pos (sub_pos.mpr hK1) (sub_pos.mpr hK1)]
  · nlinarith [mul_pos (sub_pos.mpr hK2)
      (show (0:ℝ) < 0.0078548 + hpK 0.1 40 by nlinarith)]

/-- Bounds on the normalizing constant `D` at cutoff 0.1 Hz, sample rate
40 Hz. -/
lemma hpD_01_40_bounds :
    1.0111686 < hpD 0.1 40 ∧ hpD 0.1 40 < 1.0111702 := by
  obtain ⟨ha1, ha2⟩ := sqrt2K_bounds
  obtain ⟨hb1, hb2⟩ := hpK_sq_bounds
  unfold hpD
  constructor <;> nlinarith

/-- C6 is refuted as stated: the leading numerator coefficient of
`design_butterworth_highpass(order=2, cutoff_hz=0.1, sample_rate_hz=40.0)`
is `1/D ≈ 0.98895`, which differs from the claimed reference value `0.9149`
by far more than `1e-3`. -/
theorem C6_counterexample :
    |(okNum (design_butterworth_highpass 2 0.1 40)).getD 0 0 - 0.9149| >
      1e-3 := by
  have hnum : okNum (design_butterworth_highpass 2 (0.1 : ℝ) 40) =
      [1 / hpD 0.1 40, -2 / hpD 0.1 40, 1 / hpD 0.1 40] := by
    rw [design_hp_eq 0.1 40 (by norm_num) (by norm_num)]
    rfl
  rw [hnum]
  simp only [List.getD_cons_zero]
  have hDpos := hpD_pos (0.1 : ℝ) 40
  obtain ⟨hD1, hD2⟩ := hpD_01_40_bounds
  have hinv : (0.988 : ℝ) < 1 / hpD 0.1 40 := by
    rw [lt_div_iff₀ hDpos]
    nlinarith
  rw [abs_of_pos (by nlinarith)]
  nlinarith

set_option maxHeartbeats 1000000 in
/-- C6 (amended): the coefficients actually produced at cutoff 0.1 Hz,
sample rate 40 Hz are `b ≈ [0.989, -1.978, 0.989]` and
`a ≈ [1, -1.9778, 0.978]`, each entry within `1e-3` (the spec's quoted
reference values correspond to a normalized cutoff `Wn = 0.04`, e.g. a
5 Hz sample rate, not to these parameters). -/
theorem C6_amended_coefficients :
    |(okNum (design_butterworth_highpass 2 0.1 40)).getD 0 0 - 0.989| < 1e-3 ∧
    |(okNum (design_butterworth_highpass 2 0.1 40)).getD 1 0 - (-1.978)| < 1e-3 ∧
    |(okNum (design_butterworth_highpass 2 0.1 40)).getD 2 0 - 0.989| < 1e-3 ∧
    (okDen (design_butterworth_highpass 2 0.1 40)).getD 0 0 = 1 ∧
    |(okDen (design_butterworth_highpass 2 0.1 40)).getD 1 0 - (-1.9778)| < 1e-3 ∧
    |(okDen (design_butterworth_highpass 2 0.1 40)).getD 2 0 - 0.978| < 1e-3 := by
  have heq := design_hp_eq (0.1 : ℝ) 40 (by norm_num) (by norm_num)
  have hnum : okNum (design_butterworth_highpass 2 (0.1 : ℝ) 40) =
      [1 / hpD 0.1 40, -2 / hpD 0.1 40, 1 / hpD 0.1 40] := by
    rw [heq]
    rfl
  have hden : okDen (design_butterworth_highpass 2 (0.1 : ℝ) 40) =
      [1, (2 * hpK 0.1 40 ^ 2 - 2) / hpD 0.1 40,
        (1 - Real.sqrt 2 * hpK 0.1 40 + hpK 0.1 40 ^ 2) / hpD 0.1 40] := by
    rw [heq]
    rfl
  rw [hnum, hden]
  simp only [List.getD_cons_zero, List.getD_cons_succ]
  have hDpos := hpD_pos (0.1 : ℝ) 40
  obtain ⟨hD1, hD2⟩ := hpD_01_40_bounds
  obtain ⟨hsK1, hsK2⟩ := sqrt2K_bounds
  obtain ⟨hK21, hK22⟩ := hpK_sq_bounds
  have hb0_lb : (0.988 : ℝ) < 1 / hpD 0.1 40 := by
    rw [lt_div_iff₀ hDpos]
    nlinarith
  have hb0_ub : 1 / hpD 0.1 40 < (0.99 : ℝ) := by
    rw [div_lt_iff₀ hDpos]
    nlinarith
  have hb1_lb : (-1.979 : ℝ) < -2 / hpD 0.1 40 := by
    rw [lt_div_iff₀ hDpos]
    nlinarith
  have hb1_ub : -2 / hpD 0.1 40 < (-1.977 : ℝ) := by
    rw [div_lt_iff₀ hDpos]
    nlinarith
  have ha1_lb : (-1.9788 : ℝ) < (2 * hpK 0.1 40 ^ 2 - 2) / hpD 0.1 40 := by
    rw [lt_div_iff₀ hDpos]
    nlinarith
  have ha1_ub : (2 * hpK 0.1 40 ^ 2 - 2) / hpD 0.1 40 < (-1.9768 : ℝ) := by
    rw [div_lt_iff₀ hDpos]
    nlinarith
  have ha2_lb : (0.977 : ℝ) <
      (1 - Real.sqrt 2 * hpK 0.1 40 + hpK 0.1 40 ^ 2) / hpD 0.1 40 := by
    rw [lt_div_iff₀ hDpos]
    nlinarith
  have ha2_ub :
      (1 - Real.sqrt 2 * hpK 0.1 40 + hpK 0.1 40 ^ 2) / hpD 0.1 40 <
        (0.979 : ℝ) := by
    rw [div_lt_iff₀ hDpos]
    nlinarith
  refine ⟨?_, ?_, ?_, trivial, ?_, ?_⟩ <;> rw [abs_lt] <;>
    constructor <;> linarith

end OpenPSG
